import Mathlib

set_option maxRecDepth 10000

/-!
Shallow embedding of the GVN pass from src/src/GVN.cpp.

The embedding models the live code of the pass: the `ValueTable`
(`lookupOrAddValue`, `getExpressionString`, `areEqual`) and the driver
`GVN::run` (trivial-phi pre-pass, post-order main pass over the dominator
tree, apply phase).  LLVM `Value*` pointers become structural identifiers:
instructions are referenced by a numeric id, constants are uniqued by
(type, value) exactly as LLVM uniques them, arguments by (type, index).
Recursion in `lookupOrAddValue` is fuel-indexed because the C++ recursion
is unbounded on cyclic use-def chains; `none` models non-termination
within the given fuel.  The dominator tree is an input (in the source it
is produced by the host analysis manager, which is outside the pass).
The apply phase iterates scheduled instructions in insertion order (the
C++ `SmallPtrSet` order is unspecified; the schedule itself, which the
claims are about, does not depend on this choice).
-/

inductive Ty where
  | i1
  | i8
  | i32
  | i64
  | ptr
  | f32
  | f64
deriving DecidableEq, Repr

inductive BinOp where
  | add
  | fadd
  | sub
  | fsub
  | mul
  | udiv
  | sdiv
  | shl
  | lshr
  | ashr
  | band
  | bor
  | bxor
deriving DecidableEq, Repr

/-- LLVM opcode numbers for binary operators (`Instruction::getOpcode`). -/
def BinOp.opcNum : BinOp → Nat
  | .add => 13
  | .fadd => 14
  | .sub => 15
  | .fsub => 16
  | .mul => 17
  | .udiv => 19
  | .sdiv => 20
  | .shl => 23
  | .lshr => 24
  | .ashr => 25
  | .band => 26
  | .bor => 27
  | .bxor => 28

/-- Opcode number of `LoadInst`. -/
def loadOpc : Nat := 32

/-- Opcode number of `PHINode`. -/
def phiOpc : Nat := 55

/-- Opcode number of `ICmpInst`. -/
def icmpOpc : Nat := 53

/-- An SSA value: a constant integer (uniqued by type and value, as LLVM
uniques constants), a function argument, or a reference to an instruction
by id (modelling the instruction pointer). -/
inductive Val where
  | constInt (ty : Ty) (v : Int)
  | arg (ty : Ty) (idx : Nat)
  | inst (id : Nat)
deriving DecidableEq, Repr

inductive InstKind where
  | binop (op : BinOp) (lhs rhs : Val)
  | icmp (pred : Nat) (lhs rhs : Val)
  | load (addrSpace : Nat) (addr : Val)
  | phi (incoming : List (Val × Nat))
  | other (opc : Nat) (ops : List Val) (term sideEff ehpad : Bool)
deriving DecidableEq, Repr

structure Instr where
  id : Nat
  ty : Ty
  kind : InstKind
deriving DecidableEq, Repr

def Instr.isTerminator (I : Instr) : Bool :=
  match I.kind with
  | .other _ _ t _ _ => t
  | _ => false

def Instr.hasSideEffects (I : Instr) : Bool :=
  match I.kind with
  | .other _ _ _ s _ => s
  | _ => false

def Instr.isEHPad (I : Instr) : Bool :=
  match I.kind with
  | .other _ _ _ _ e => e
  | _ => false

def Instr.isPhi (I : Instr) : Bool :=
  match I.kind with
  | .phi _ => true
  | _ => false

/-- `I->isBinaryOp() || isa<CmpInst>(I) || isa<LoadInst>(I) || isa<PHINode>(I)`:
the instruction kinds that get a structural signature in
`ValueTable::lookupOrAddValue`; all others take the `CreateNewNumber` path. -/
def Instr.isEligible (I : Instr) : Bool :=
  match I.kind with
  | .other _ _ _ _ _ => false
  | _ => true

structure Block where
  id : Nat
  insts : List Instr
deriving DecidableEq, Repr

structure Func where
  blocks : List Block
deriving DecidableEq, Repr

def allInsts (F : Func) : List Instr :=
  (F.blocks.map (fun b => b.insts)).flatten

def findInst (env : List Instr) (id : Nat) : Option Instr :=
  env.find? (fun I => I.id == id)

/-- Dominator tree over basic-block ids, supplied by the host
(`FAM.getResult<DominatorTreeAnalysis>`). -/
inductive DomTree where
  | mk (bb : Nat) (children : List DomTree)

mutual

/-- `post_order(DT.getRootNode())`: children subtrees first, node last. -/
def DomTree.post : DomTree → List Nat
  | .mk b cs => DomTree.postList cs ++ [b]

def DomTree.postList : List DomTree → List Nat
  | [] => []
  | t :: ts => t.post ++ DomTree.postList ts

end

mutual

def DomTree.findNode : DomTree → Nat → Option DomTree
  | .mk b cs, a => if b = a then some (.mk b cs) else DomTree.findList cs a

def DomTree.findList : List DomTree → Nat → Option DomTree
  | [], _ => none
  | t :: ts, a =>
    match t.findNode a with
    | some r => some r
    | none => DomTree.findList ts a

end

def DomTree.containsB (t : DomTree) (a : Nat) : Bool :=
  (t.findNode a).isSome

/-- Block dominance: `b` lies in the dominator subtree rooted at `a`
(reflexive, as `DominatorTree::dominates` on blocks is). -/
def blockDom (dt : DomTree) (a b : Nat) : Bool :=
  match dt.findNode a with
  | some ta => ta.containsB b
  | none => false

def strictlyDominatesB (dt : DomTree) (a b : Nat) : Bool :=
  decide (a ≠ b) && blockDom dt a b

def idxOfInst (l : List Instr) (id : Nat) : Option Nat :=
  l.findIdx? (fun I => I.id == id)

def blockOf (F : Func) (id : Nat) : Option Block :=
  F.blocks.find? (fun b => (idxOfInst b.insts id).isSome)

/-- `DT.dominates(EarlierInst, Inst)`: within one block, program order;
across blocks, block dominance. -/
def instDominates (F : Func) (dt : DomTree) (eid iid : Nat) : Bool :=
  match blockOf F eid, blockOf F iid with
  | some ba, some bb =>
    if ba.id = bb.id then
      match idxOfInst ba.insts eid, idxOfInst ba.insts iid with
      | some i, some j => i < j
      | _, _ => false
    else blockDom dt ba.id bb.id
  | _, _ => false

/-- Association-list lookup (`DenseMap::find` / `unordered_map::find`). -/
def alookup {α β : Type} [DecidableEq α] : List (α × β) → α → Option β
  | [], _ => none
  | (k, v) :: t, a => if k = a then some v else alookup t a

/-- Association-list update with overwrite (`map[key] = value`). -/
def aupd {α β : Type} [DecidableEq α] : List (α × β) → α → β → List (α × β)
  | [], k, v => [(k, v)]
  | (k1, v1) :: t, k, v => if k1 = k then (k, v) :: t else (k1, v1) :: aupd t k v

/-- The three co-maintained maps of `ValueTable` plus `nextValueNumber`. -/
structure VTState where
  valueNumbering : List (Val × Nat)
  exprNumbering : List (List Nat × Nat)
  numberToValue : List (Nat × Val)
  next : Nat
deriving DecidableEq, Repr

def VTState.empty : VTState := ⟨[], [], [], 1⟩

/-- `Constant::isNullValue` for the modelled constants. -/
def isNullConst : Val → Bool
  | .constInt _ v => v == 0
  | _ => false

/-- The `CreateNewNumber` tail of `lookupOrAddValue`: mint a fresh number,
bind the value, record the representative; no signature is recorded. -/
def createNewVN (v : Val) (st : VTState) : Nat × VTState :=
  (st.next,
    ⟨aupd st.valueNumbering v st.next, st.exprNumbering,
      aupd st.numberToValue st.next v, st.next + 1⟩)

/-- Sequential numbering of an operand list, threading the table state;
`f` is the recursive `lookupOrAddValue` at the next fuel level. -/
def lookupVals (f : Val → VTState → Option (Nat × VTState)) :
    List Val → VTState → Option (List Nat × VTState)
  | [], st => some ([], st)
  | v :: vs, st =>
    match f v st with
    | none => none
    | some (n, st1) =>
      match lookupVals f vs st1 with
      | none => none
      | some (ns, st2) => some (n :: ns, st2)

/-- Numbering of phi incomings: per edge, the incoming value number then the
incoming block identity (the source writes the block pointer into the
signature). -/
def lookupPhi (f : Val → VTState → Option (Nat × VTState)) :
    List (Val × Nat) → VTState → Option (List Nat × VTState)
  | [], st => some ([], st)
  | (v, bb) :: rest, st =>
    match f v st with
    | none => none
    | some (n, st1) =>
      match lookupPhi f rest st1 with
      | none => none
      | some (ns, st2) => some (n :: bb :: ns, st2)

/-- `ValueTable::getExpressionString`, with the space-separated string
rendered as its (equivalent, injectively encoded) token list: opcode first,
then for phis (value number, block id) pairs, otherwise operand value
numbers followed by the address space for loads and the predicate for
compares.  The result type of the instruction is not part of the
signature, exactly as in the source. -/
def getTokens (f : Val → VTState → Option (Nat × VTState)) (I : Instr)
    (st : VTState) : Option (List Nat × VTState) :=
  match I.kind with
  | .phi inc =>
    match lookupPhi f inc st with
    | none => none
    | some (ns, st1) => some (phiOpc :: ns, st1)
  | .binop op l r =>
    match lookupVals f [l, r] st with
    | none => none
    | some (ns, st1) => some (op.opcNum :: ns, st1)
  | .icmp pred l r =>
    match lookupVals f [l, r] st with
    | none => none
    | some (ns, st1) => some (icmpOpc :: (ns ++ [pred]), st1)
  | .load asp addr =>
    match lookupVals f [addr] st with
    | none => none
    | some (ns, st1) => some (loadOpc :: (ns ++ [asp]), st1)
  | .other opc ops _ _ _ =>
    match lookupVals f ops st with
    | none => none
    | some (ns, st1) => some (opc :: ns, st1)

/-- `ValueTable::lookupOrAddValue`, fuel-indexed.  Null constants return the
reserved number 0 before any map access; an already-bound value returns its
binding; an eligible instruction goes through the signature table; anything
else takes `CreateNewNumber`. -/
def lookupOrAdd (env : List Instr) : Nat → Val → VTState → Option (Nat × VTState)
  | 0, _, _ => none
  | fuel + 1, v, st =>
    if isNullConst v then some (0, st)
    else
      match alookup st.valueNumbering v with
      | some n => some (n, st)
      | none =>
        match v with
        | .inst id =>
          match findInst env id with
          | some I =>
            if I.isEligible then
              match getTokens (lookupOrAdd env fuel) I st with
              | none => none
              | some (toks, st1) =>
                match alookup st1.exprNumbering toks with
                | some n =>
                  some (n, { st1 with valueNumbering := aupd st1.valueNumbering v n })
                | none =>
                  some (st1.next,
                    ⟨aupd st1.valueNumbering v st1.next,
                      aupd st1.exprNumbering toks st1.next,
                      aupd st1.numberToValue st1.next v, st1.next + 1⟩)
            else some (createNewVN v st)
          | none => some (createNewVN v st)
        | _ => some (createNewVN v st)

/-- `ValueTable::areEqual`: compare the two looked-up value numbers. -/
def areEqual (env : List Instr) (fuel : Nat) (v1 v2 : Val) (st : VTState) :
    Option (Bool × VTState) :=
  match lookupOrAdd env fuel v1 st with
  | none => none
  | some (n1, st1) =>
    match lookupOrAdd env fuel v2 st1 with
    | none => none
    | some (n2, st2) => some (n1 == n2, st2)

/-- The driver state of one `GVN::run`: the value table, the removal set
(in insertion order), the replacement map, the changed flag, and the two
statistics counters. -/
structure RunState where
  vt : VTState
  toRemove : List Nat
  repl : List (Nat × Val)
  changed : Bool
  numInsts : Nat
  numRedundant : Nat
deriving DecidableEq, Repr

def RunState.start : RunState := ⟨VTState.empty, [], [], false, 0, 0⟩

def insertId (l : List Nat) (id : Nat) : List Nat :=
  if id ∈ l then l else l ++ [id]

/-- Insert into `toRemove`, record the replacement, set `Changed`, bump the
redundancy counter — the common bookkeeping of the three scheduling sites. -/
def scheduleRemoval (rs : RunState) (id : Nat) (rep : Val) : RunState :=
  { rs with toRemove := insertId rs.toRemove id, repl := aupd rs.repl id rep,
            changed := true, numRedundant := rs.numRedundant + 1 }

/-- First pass of `GVN::run`: a phi with at least one incoming edge whose
incoming values are all the identical value (pointer identity, no value
numbering) is scheduled for replacement by that value. -/
def phase1Inst (rs : RunState) (I : Instr) : RunState :=
  match I.kind with
  | .phi [] => rs
  | .phi ((v0, _) :: rest) =>
    if rest.all (fun p => decide (p.1 = v0)) then scheduleRemoval rs I.id v0 else rs
  | _ => rs

def phase1 (F : Func) (rs : RunState) : RunState :=
  F.blocks.foldl (fun r b => b.insts.foldl phase1Inst r) rs

/-- The main-pass phi check: each further incoming value must be pointer
identical to the first or `areEqual` to it; the loop breaks at the first
failure (leaving the table as mutated up to that point, as the source does). -/
def phiAllSame (env : List Instr) (fuel : Nat) (common : Val) :
    List (Val × Nat) → VTState → Option (Bool × VTState)
  | [], st => some (true, st)
  | (v, _) :: rest, st =>
    if v = common then phiAllSame env fuel common rest st
    else
      match areEqual env fuel v common st with
      | none => none
      | some (true, st1) => phiAllSame env fuel common rest st1
      | some (false, st1) => some (false, st1)

/-- Number the instruction and, when its number already has a different
instruction recorded as representative, schedule removal only if that
representative dominates it. -/
def numberAndCheck (env : List Instr) (F : Func) (dt : DomTree) (fuel : Nat)
    (rs : RunState) (I : Instr) : Option RunState :=
  let rs1 := { rs with numInsts := rs.numInsts + 1 }
  match lookupOrAdd env fuel (Val.inst I.id) rs1.vt with
  | none => none
  | some (vn, vt1) =>
    let rs2 := { rs1 with vt := vt1 }
    match alookup vt1.numberToValue vn with
    | none => some rs2
    | some earlier =>
      if earlier = Val.inst I.id then some rs2
      else
        match earlier with
        | Val.inst eid =>
          if instDominates F dt eid I.id then some (scheduleRemoval rs2 I.id earlier)
          else some rs2
        | _ => some rs2

/-- One instruction of the main pass: skip terminators, side-effecting
instructions and EH pads; handle phis (empty phi skipped, all-same phi
scheduled, otherwise fall through to numbering); number everything else. -/
def phase2Inst (env : List Instr) (F : Func) (dt : DomTree) (fuel : Nat)
    (rs : RunState) (I : Instr) : Option RunState :=
  if I.isTerminator || I.hasSideEffects || I.isEHPad then some rs
  else
    match I.kind with
    | .phi [] => some rs
    | .phi ((v0, _) :: rest) =>
      match phiAllSame env fuel v0 rest rs.vt with
      | none => none
      | some (true, vt1) => some (scheduleRemoval { rs with vt := vt1 } I.id v0)
      | some (false, vt1) => numberAndCheck env F dt fuel { rs with vt := vt1 } I
    | _ => numberAndCheck env F dt fuel rs I

def foldOptList {α : Type} (f : RunState → α → Option RunState) :
    List α → RunState → Option RunState
  | [], rs => some rs
  | a :: rest, rs =>
    match f rs a with
    | none => none
    | some rs1 => foldOptList f rest rs1

def findBlock (F : Func) (bid : Nat) : Option Block :=
  F.blocks.find? (fun b => b.id == bid)

def phase2Block (env : List Instr) (F : Func) (dt : DomTree) (fuel : Nat)
    (rs : RunState) (bid : Nat) : Option RunState :=
  match findBlock F bid with
  | none => some rs
  | some b => foldOptList (phase2Inst env F dt fuel) b.insts rs

/-- Main pass of `GVN::run`: the blocks are visited in post-order over the
dominator tree (`for (auto *Node : post_order(DT.getRootNode()))`),
instructions within a block in program order. -/
def phase2 (env : List Instr) (F : Func) (dt : DomTree) (fuel : Nat)
    (rs : RunState) : Option RunState :=
  foldOptList (phase2Block env F dt fuel) dt.post rs

def replaceVal (old : Nat) (rep : Val) (v : Val) : Val :=
  if v = Val.inst old then rep else v

def replaceInKind (old : Nat) (rep : Val) : InstKind → InstKind
  | .binop op l r => .binop op (replaceVal old rep l) (replaceVal old rep r)
  | .icmp p l r => .icmp p (replaceVal old rep l) (replaceVal old rep r)
  | .load a addr => .load a (replaceVal old rep addr)
  | .phi inc => .phi (inc.map (fun p => (replaceVal old rep p.1, p.2)))
  | .other opc ops t s e => .other opc (ops.map (replaceVal old rep)) t s e

/-- `I->replaceAllUsesWith(replacements[I])`. -/
def replaceUses (F : Func) (old : Nat) (rep : Val) : Func :=
  ⟨F.blocks.map (fun b =>
    ⟨b.id, b.insts.map (fun I => ⟨I.id, I.ty, replaceInKind old rep I.kind⟩)⟩)⟩

/-- `I->eraseFromParent()`. -/
def eraseInst (F : Func) (id : Nat) : Func :=
  ⟨F.blocks.map (fun b => ⟨b.id, b.insts.filter (fun I => decide (I.id ≠ id))⟩)⟩

/-- Apply phase: per scheduled instruction, redirect its uses to the chosen
replacement, then erase it. -/
def applyAll (toR : List Nat) (repl : List (Nat × Val)) (F : Func) : Func :=
  toR.foldl (fun f id =>
    match alookup repl id with
    | some rep => eraseInst (replaceUses f id rep) id
    | none => f) F

structure RunResult where
  fn : Func
  changed : Bool
  toRemove : List Nat
  repl : List (Nat × Val)
  numInsts : Nat
  numRedundant : Nat
deriving DecidableEq, Repr

/-- `GVN::run`: trivial-phi pre-pass, post-order main pass, apply phase;
the verdict is the `Changed` flag. -/
def runGVN (fuel : Nat) (F : Func) (dt : DomTree) : Option RunResult :=
  let env := allInsts F
  let rs1 := phase1 F RunState.start
  match phase2 env F dt fuel rs1 with
  | none => none
  | some rs2 =>
    some ⟨applyAll rs2.toRemove rs2.repl F, rs2.changed, rs2.toRemove,
      rs2.repl, rs2.numInsts, rs2.numRedundant⟩

/-!  Basic lemmas about the association-list operations. -/

theorem alookup_aupd {α β : Type} [DecidableEq α] (l : List (α × β)) (k : α)
    (v : β) (a : α) :
    alookup (aupd l k v) a = if k = a then some v else alookup l a := by
  induction l with
  | nil =>
    by_cases h : k = a <;> simp [aupd, alookup, h]
  | cons hd t ih =>
    obtain ⟨k1, v1⟩ := hd
    by_cases hk : k1 = k
    · subst hk
      by_cases ha : k1 = a <;> simp [aupd, alookup, ha]
    · by_cases ha : k1 = a
      · subst ha
        have hka : ¬ k = k1 := fun h => hk h.symm
        simp [aupd, alookup, hk, hka]
      · simp [aupd, alookup, hk, ha, ih]

theorem alookup_aupd_self {α β : Type} [DecidableEq α] (l : List (α × β))
    (k : α) (v : β) : alookup (aupd l k v) k = some v := by
  simp [alookup_aupd]

theorem alookup_aupd_ne {α β : Type} [DecidableEq α] (l : List (α × β))
    (k : α) (v : β) (a : α) (h : k ≠ a) :
    alookup (aupd l k v) a = alookup l a := by
  simp [alookup_aupd, h]

theorem mem_insertId (l : List Nat) (id a : Nat) :
    a ∈ insertId l id ↔ a ∈ l ∨ a = id := by
  unfold insertId
  split
  · next h =>
    constructor
    · exact fun ha => Or.inl ha
    · rintro (ha | rfl)
      · exact ha
      · exact h
  · simp

theorem mem_allInsts {F : Func} {b : Block} {I : Instr}
    (hb : b ∈ F.blocks) (hI : I ∈ b.insts) : I ∈ allInsts F := by
  unfold allInsts
  rw [List.mem_flatten]
  exact ⟨b.insts, List.mem_map_of_mem _ hb, hI⟩

/-!  The value-table invariant: every number stored anywhere is below
`nextValueNumber`, and a value that took the `CreateNewNumber` path (a
non-instruction, or an ineligible instruction) is recorded as the unique
representative of its number. -/

/-- Whether `lookupOrAddValue` would route this value through the signature
table: it must be a reference to an instruction of the function that is a
binary op, compare, load or phi. -/
def eligibleValB (env : List Instr) : Val → Bool
  | .inst id =>
    match findInst env id with
    | some I => I.isEligible
    | none => false
  | _ => false

structure VTInv (env : List Instr) (st : VTState) : Prop where
  wfVN : ∀ v n, alookup st.valueNumbering v = some n → n < st.next
  wfExpr : ∀ toks n, alookup st.exprNumbering toks = some n → n < st.next
  wfN2V : ∀ n v, alookup st.numberToValue n = some v → n < st.next
  rep : ∀ v n, eligibleValB env v = false →
    alookup st.valueNumbering v = some n → alookup st.numberToValue n = some v

theorem VTInv_empty (env : List Instr) : VTInv env VTState.empty := by
  constructor <;> intros <;> simp_all [VTState.empty, alookup]

/-- What one table operation guarantees: existing node bindings survive
unchanged, the invariant is preserved, and the number counter does not
decrease. -/
def StepOK (env : List Instr) (st st1 : VTState) : Prop :=
  (∀ w m, alookup st.valueNumbering w = some m →
    alookup st1.valueNumbering w = some m)
  ∧ (VTInv env st → VTInv env st1)
  ∧ st.next ≤ st1.next

theorem StepOK.rfl {env : List Instr} {st : VTState} : StepOK env st st :=
  ⟨fun _ _ h => h, fun h => h, Nat.le_refl _⟩

theorem StepOK.trans {env : List Instr} {st1 st2 st3 : VTState}
    (h1 : StepOK env st1 st2) (h2 : StepOK env st2 st3) : StepOK env st1 st3 :=
  ⟨fun w m h => h2.1 w m (h1.1 w m h), fun h => h2.2.1 (h1.2.1 h),
    Nat.le_trans h1.2.2 h2.2.2⟩

theorem lookupVals_stepOK {env : List Instr}
    {f : Val → VTState → Option (Nat × VTState)}
    (hf : ∀ v st r, f v st = some r → StepOK env st r.2) :
    ∀ (l : List Val) (st : VTState) (r : List Nat × VTState),
      lookupVals f l st = some r → StepOK env st r.2 := by
  intro l
  induction l with
  | nil =>
    intro st r h
    simp only [lookupVals] at h
    cases h
    exact StepOK.rfl
  | cons v vs ih =>
    intro st r h
    simp only [lookupVals] at h
    split at h
    · exact absurd h (by simp)
    · next n st1 heq =>
      split at h
      · exact absurd h (by simp)
      · next ns st2 heq2 =>
        cases h
        exact (hf v st _ heq).trans (ih st1 (ns, st2) heq2)

theorem lookupPhi_stepOK {env : List Instr}
    {f : Val → VTState → Option (Nat × VTState)}
    (hf : ∀ v st r, f v st = some r → StepOK env st r.2) :
    ∀ (l : List (Val × Nat)) (st : VTState) (r : List Nat × VTState),
      lookupPhi f l st = some r → StepOK env st r.2 := by
  intro l
  induction l with
  | nil =>
    intro st r h
    simp only [lookupPhi] at h
    cases h
    exact StepOK.rfl
  | cons p rest ih =>
    intro st r h
    obtain ⟨v, bb⟩ := p
    simp only [lookupPhi] at h
    split at h
    · exact absurd h (by simp)
    · next n st1 heq =>
      split at h
      · exact absurd h (by simp)
      · next ns st2 heq2 =>
        cases h
        exact (hf v st _ heq).trans (ih st1 (ns, st2) heq2)

theorem getTokens_stepOK {env : List Instr}
    {f : Val → VTState → Option (Nat × VTState)}
    (hf : ∀ v st r, f v st = some r → StepOK env st r.2)
    {I : Instr} {st : VTState} {r : List Nat × VTState}
    (h : getTokens f I st = some r) : StepOK env st r.2 := by
  unfold getTokens at h
  split at h
  · next inc hk =>
    split at h
    · exact absurd h (by simp)
    · next ns st1 heq =>
      cases h
      exact lookupPhi_stepOK hf inc st (ns, st1) heq
  · next op l rr hk =>
    split at h
    · exact absurd h (by simp)
    · next ns st1 heq =>
      cases h
      exact lookupVals_stepOK hf [l, rr] st (ns, st1) heq
  · next pred l rr hk =>
    split at h
    · exact absurd h (by simp)
    · next ns st1 heq =>
      cases h
      exact lookupVals_stepOK hf [l, rr] st (ns, st1) heq
  · next asp addr hk =>
    split at h
    · exact absurd h (by simp)
    · next ns st1 heq =>
      cases h
      exact lookupVals_stepOK hf [addr] st (ns, st1) heq
  · next opc ops t s e hk =>
    split at h
    · exact absurd h (by simp)
    · next ns st1 heq =>
      cases h
      exact lookupVals_stepOK hf ops st (ns, st1) heq

theorem createNewVN_stepOK {env : List Instr} {v : Val} {st : VTState}
    (hnone : alookup st.valueNumbering v = none) :
    StepOK env st (createNewVN v st).2 := by
  refine ⟨?_, ?_, ?_⟩
  · intro w m hw
    have hwv : v ≠ w := by
      intro he
      rw [← he] at hw
      rw [hnone] at hw
      exact Option.noConfusion hw
    simpa [createNewVN, alookup_aupd_ne _ _ _ _ hwv] using hw
  · intro hinv
    constructor
    · intro w m hw
      simp only [createNewVN, alookup_aupd] at hw
      split at hw
      · cases hw; exact Nat.lt_succ_self _
      · exact Nat.lt_trans (hinv.wfVN w m hw) (Nat.lt_succ_self _)
    · intro toks m htoks
      exact Nat.lt_trans (hinv.wfExpr toks m htoks) (Nat.lt_succ_self _)
    · intro m w hw
      simp only [createNewVN, alookup_aupd] at hw
      split at hw
      · next he => rw [← he]; exact Nat.lt_succ_self _
      · exact Nat.lt_trans (hinv.wfN2V m w hw) (Nat.lt_succ_self _)
    · intro w m _ hw
      simp only [createNewVN, alookup_aupd] at hw ⊢
      split at hw
      · next he =>
        cases hw
        rw [← he]
        simp
      · next he =>
        have hm : m < st.next := hinv.wfVN w m hw
        have hne : st.next ≠ m := fun hc => absurd hc.symm (Nat.ne_of_lt hm)
        rw [if_neg hne]
        exact hinv.rep w m (by assumption) hw
  · exact Nat.le_succ _

theorem lookupOrAdd_stepOK {env : List Instr} :
    ∀ (fuel : Nat) (v : Val) (st : VTState) (r : Nat × VTState),
      lookupOrAdd env fuel v st = some r → StepOK env st r.2 := by
  intro fuel
  induction fuel with
  | zero =>
    intro v st r h
    simp [lookupOrAdd] at h
  | succ fuel ih =>
    intro v st r h
    simp only [lookupOrAdd] at h
    split at h
    · cases h; exact StepOK.rfl
    · next hnull =>
      split at h
      · cases h; exact StepOK.rfl
      · next hnone =>
        split at h
        · next id =>
          split at h
          · next I hI =>
            split at h
            · next helig =>
              have heligv : eligibleValB env (Val.inst id) = true := by
                simp [eligibleValB, hI, helig]
              split at h
              · exact absurd h (by simp)
              · next toks st1 htok =>
                have hstep : StepOK env st st1 :=
                  getTokens_stepOK (fun v st r hr => ih v st r hr) htok
                split at h
                · next n hexpr =>
                  cases h
                  refine ⟨?_, ?_, ?_⟩
                  · intro w m hw
                    have hwv : Val.inst id ≠ w := by
                      intro he
                      rw [← he] at hw
                      rw [hnone] at hw
                      exact Option.noConfusion hw
                    have hw1 := hstep.1 w m hw
                    simpa [alookup_aupd_ne _ _ _ _ hwv] using hw1
                  · intro hinv
                    have hinv1 := hstep.2.1 hinv
                    constructor
                    · intro w m hw
                      simp only [alookup_aupd] at hw
                      split at hw
                      · cases hw; exact hinv1.wfExpr toks n hexpr
                      · exact hinv1.wfVN w m hw
                    · exact hinv1.wfExpr
                    · exact hinv1.wfN2V
                    · intro w m hinel hw
                      simp only [alookup_aupd] at hw
                      split at hw
                      · next he =>
                        rw [← he] at hinel
                        rw [heligv] at hinel
                        exact Bool.noConfusion hinel
                      · exact hinv1.rep w m hinel hw
                  · exact hstep.2.2
                · next hexpr =>
                  cases h
                  refine ⟨?_, ?_, ?_⟩
                  · intro w m hw
                    have hwv : Val.inst id ≠ w := by
                      intro he
                      rw [← he] at hw
                      rw [hnone] at hw
                      exact Option.noConfusion hw
                    have hw1 := hstep.1 w m hw
                    simpa [alookup_aupd_ne _ _ _ _ hwv] using hw1
                  · intro hinv
                    have hinv1 := hstep.2.1 hinv
                    constructor
                    · intro w m hw
                      simp only [alookup_aupd] at hw
                      split at hw
                      · cases hw; exact Nat.lt_succ_self _
                      · exact Nat.lt_trans (hinv1.wfVN w m hw) (Nat.lt_succ_self _)
                    · intro tk m htk
                      simp only [alookup_aupd] at htk
                      split at htk
                      · cases htk; exact Nat.lt_succ_self _
                      · exact Nat.lt_trans (hinv1.wfExpr tk m htk) (Nat.lt_succ_self _)
                    · intro m w hw
                      simp only [alookup_aupd] at hw
                      split at hw
                      · next he => rw [← he]; exact Nat.lt_succ_self _
                      · exact Nat.lt_trans (hinv1.wfN2V m w hw) (Nat.lt_succ_self _)
                    · intro w m hinel hw
                      simp only [alookup_aupd] at hw ⊢
                      split at hw
                      · next he =>
                        rw [← he] at hinel
                        rw [heligv] at hinel
                        exact Bool.noConfusion hinel
                      · next he =>
                        have hm : m < st1.next := hinv1.wfVN w m hw
                        have hne : st1.next ≠ m := fun hc => absurd hc.symm (Nat.ne_of_lt hm)
                        rw [if_neg hne]
                        exact hinv1.rep w m hinel hw
                  · exact Nat.le_trans hstep.2.2 (Nat.le_succ _)
            · cases h
              exact createNewVN_stepOK hnone
          · cases h
            exact createNewVN_stepOK hnone
        · cases h
          exact createNewVN_stepOK hnone

theorem areEqual_stepOK {env : List Instr} {fuel : Nat} {v1 v2 : Val}
    {st : VTState} {b : Bool} {st1 : VTState}
    (h : areEqual env fuel v1 v2 st = some (b, st1)) : StepOK env st st1 := by
  unfold areEqual at h
  split at h
  · exact absurd h (by simp)
  · next n1 sta h1 =>
    split at h
    · exact absurd h (by simp)
    · next n2 stb h2 =>
      have hs1 := lookupOrAdd_stepOK fuel v1 st (n1, sta) h1
      have hs2 := lookupOrAdd_stepOK fuel v2 sta (n2, stb) h2
      cases h
      exact hs1.trans hs2

theorem phiAllSame_stepOK {env : List Instr} {fuel : Nat} {common : Val} :
    ∀ (l : List (Val × Nat)) (st : VTState) (b : Bool) (st1 : VTState),
      phiAllSame env fuel common l st = some (b, st1) → StepOK env st st1 := by
  intro l
  induction l with
  | nil =>
    intro st b st1 h
    simp only [phiAllSame] at h
    cases h
    exact StepOK.rfl
  | cons p rest ih =>
    intro st b st1 h
    obtain ⟨v, bb⟩ := p
    simp only [phiAllSame] at h
    split at h
    · exact ih st b st1 h
    · split at h
      · exact absurd h (by simp)
      · next sta heq =>
        exact (areEqual_stepOK heq).trans (ih sta b st1 h)
      · next sta heq =>
        cases h
        exact areEqual_stepOK heq

/-- Where `lookupOrAddValue` leaves its argument: a null constant is answered
with the reserved 0 and no state change; any other value ends up bound to the
returned number in `valueNumbering`. -/
theorem lookupOrAdd_binds {env : List Instr} {fuel : Nat} {v : Val}
    {st : VTState} {n : Nat} {st1 : VTState}
    (h : lookupOrAdd env fuel v st = some (n, st1)) :
    (isNullConst v = true ∧ n = 0 ∧ st1 = st) ∨
    (isNullConst v = false ∧ alookup st1.valueNumbering v = some n) := by
  cases fuel with
  | zero => simp [lookupOrAdd] at h
  | succ fuel =>
    simp only [lookupOrAdd] at h
    split at h
    · next hnull =>
      cases h
      exact Or.inl ⟨hnull, rfl, rfl⟩
    · next hnull =>
      rw [Bool.not_eq_true] at hnull
      split at h
      · next m hfound =>
        cases h
        exact Or.inr ⟨hnull, hfound⟩
      · next hnone =>
        split at h
        · next id =>
          split at h
          · next I hI =>
            split at h
            · next helig =>
              split at h
              · exact absurd h (by simp)
              · next toks stx htok =>
                split at h
                · next m hexpr =>
                  cases h
                  refine Or.inr ⟨hnull, ?_⟩
                  simp [alookup_aupd]
                · next hexpr =>
                  cases h
                  refine Or.inr ⟨hnull, ?_⟩
                  simp [alookup_aupd]
            · cases h
              refine Or.inr ⟨hnull, ?_⟩
              simp [createNewVN, alookup_aupd]
          · cases h
            refine Or.inr ⟨hnull, ?_⟩
            simp [createNewVN, alookup_aupd]
        · cases h
          refine Or.inr ⟨hnull, ?_⟩
          simp [createNewVN, alookup_aupd]

/-- A second call on the same value returns the same number and leaves the
table untouched. -/
theorem lookupOrAdd_idem {env : List Instr} {fuel : Nat} {v : Val}
    {st : VTState} {n : Nat} {st1 : VTState}
    (h : lookupOrAdd env fuel v st = some (n, st1)) :
    lookupOrAdd env fuel v st1 = some (n, st1) := by
  cases fuel with
  | zero => simp [lookupOrAdd] at h
  | succ fuel =>
    rcases lookupOrAdd_binds h with ⟨hn, rfl, rfl⟩ | ⟨hn, hb⟩
    · simp [lookupOrAdd, hn]
    · simp [lookupOrAdd, hn, hb]

/-- On the `CreateNewNumber` path the result is recorded as its own
representative; on the found path the invariant already says so.  Hence for
any value that is not an eligible instruction (and not a null constant), the
returned number maps back to the value itself in `numberToValue`. -/
theorem lookupOrAdd_rep_ineligible {env : List Instr} {fuel : Nat} {v : Val}
    {st : VTState} {n : Nat} {st1 : VTState}
    (hinv : VTInv env st) (hnel : eligibleValB env v = false)
    (hnull : isNullConst v = false)
    (h : lookupOrAdd env fuel v st = some (n, st1)) :
    alookup st1.numberToValue n = some v := by
  cases fuel with
  | zero => simp [lookupOrAdd] at h
  | succ fuel =>
    cases v with
    | constInt ty cv =>
      simp only [lookupOrAdd, hnull, Bool.false_eq_true, if_false] at h
      split at h
      · next m hfound =>
        cases h
        exact hinv.rep _ n hnel hfound
      · cases h
        simp [createNewVN, alookup_aupd]
    | arg ty ix =>
      simp only [lookupOrAdd, hnull, Bool.false_eq_true, if_false] at h
      split at h
      · next m hfound =>
        cases h
        exact hinv.rep _ n hnel hfound
      · cases h
        simp [createNewVN, alookup_aupd]
    | inst id =>
      simp only [lookupOrAdd, hnull, Bool.false_eq_true, if_false] at h
      split at h
      · next m hfound =>
        cases h
        exact hinv.rep _ n hnel hfound
      · next hnone =>
        split at h
        · next I hI =>
          split at h
          · next helig =>
            have hcontra : eligibleValB env (Val.inst id) = true := by
              simp [eligibleValB, hI, helig]
            rw [hnel] at hcontra
            exact Bool.noConfusion hcontra
          · cases h
            simp [createNewVN, alookup_aupd]
        · cases h
          simp [createNewVN, alookup_aupd]

/-- An unbound ineligible instruction always takes the `CreateNewNumber`
path: it receives the fresh number `st.next`, the signature table is not
touched, and it is recorded as the representative of its own number. -/
theorem lookupOrAdd_ineligible_fresh {env : List Instr} {fuel : Nat}
    {id : Nat} {I : Instr} {st : VTState}
    (hI : findInst env id = some I) (hin : I.isEligible = false)
    (hun : alookup st.valueNumbering (Val.inst id) = none) :
    lookupOrAdd env (fuel + 1) (Val.inst id) st =
      some (st.next,
        ⟨aupd st.valueNumbering (Val.inst id) st.next, st.exprNumbering,
          aupd st.numberToValue st.next (Val.inst id), st.next + 1⟩) := by
  simp [lookupOrAdd, isNullConst, hun, hI, hin, createNewVN]

/-!  Generic invariant-preservation lemmas for the driver folds. -/

theorem foldl_pres {α : Type} (P : RunState → Prop)
    (f : RunState → α → RunState) :
    ∀ (l : List α), (∀ rs a, a ∈ l → P rs → P (f rs a)) →
      ∀ rs, P rs → P (l.foldl f rs) := by
  intro l
  induction l with
  | nil =>
    intro _ rs h
    simpa using h
  | cons a t ih =>
    intro hf rs h
    simp only [List.foldl_cons]
    exact ih (fun rs b hb hp => hf rs b (List.mem_cons_of_mem a hb) hp)
      (f rs a) (hf rs a (List.mem_cons_self a t) h)

theorem foldOptList_pres {α : Type} (P : RunState → Prop)
    (f : RunState → α → Option RunState) :
    ∀ (l : List α), (∀ rs a, a ∈ l → P rs → ∀ rs1, f rs a = some rs1 → P rs1) →
      ∀ rs rs', P rs → foldOptList f l rs = some rs' → P rs' := by
  intro l
  induction l with
  | nil =>
    intro _ rs rs' h heq
    simp only [foldOptList] at heq
    cases heq
    exact h
  | cons a t ih =>
    intro hf rs rs' h heq
    simp only [foldOptList] at heq
    split at heq
    · exact absurd heq (by simp)
    · next rs1 h1 =>
      exact ih (fun rs b hb hp => hf rs b (List.mem_cons_of_mem a hb) hp)
        rs1 rs' (hf rs a (List.mem_cons_self a t) h rs1 h1) heq

/-!  Concrete functions used as test inputs and counterexamples. -/

/-- A return terminator. -/
def retInstr (id : Nat) : Instr := ⟨id, .i1, .other 1 [] true false false⟩

/-- A branch terminator. -/
def brInstr (id : Nat) : Instr := ⟨id, .i1, .other 2 [] true false false⟩

def oneBlockDT : DomTree := .mk 0 []

def chainDT : DomTree := .mk 0 [.mk 1 []]

def chainDT9 : DomTree := .mk 0 [.mk 9 []]

/-- One block with `%1 = add %x, %y` and `%2 = add %y, %x` (same operand
pair, swapped). -/
def swapFunc : Func :=
  ⟨[⟨0, [⟨1, .i32, .binop .add (Val.arg .i32 0) (Val.arg .i32 1)⟩,
         ⟨2, .i32, .binop .add (Val.arg .i32 1) (Val.arg .i32 0)⟩,
         retInstr 3]⟩]⟩

/-- `%1 = add %x, %y` in the entry block, the identical `%4 = add %x, %y`
in a block strictly dominated by the entry. -/
def domFunc : Func :=
  ⟨[⟨0, [⟨1, .i32, .binop .add (Val.arg .i32 0) (Val.arg .i32 1)⟩, brInstr 2]⟩,
    ⟨1, [⟨4, .i32, .binop .add (Val.arg .i32 0) (Val.arg .i32 1)⟩, retInstr 5]⟩]⟩

/-- Two loads of the same pointer, same address space, but different result
types (`i32` versus `i64`). -/
def loadFunc : Func :=
  ⟨[⟨0, [⟨1, .i32, .load 0 (Val.arg .ptr 0)⟩,
         ⟨2, .i64, .load 0 (Val.arg .ptr 0)⟩,
         retInstr 3]⟩]⟩

/-- `%1 = add %x, %y` and the redundant `%2 = add %x, %y` in the entry,
and in a successor a trivial phi `%4 = phi [%2, entry]` whose sole incoming
value is the redundant add. -/
def phiOverAddFunc : Func :=
  ⟨[⟨0, [⟨1, .i32, .binop .add (Val.arg .i32 0) (Val.arg .i32 1)⟩,
         ⟨2, .i32, .binop .add (Val.arg .i32 0) (Val.arg .i32 1)⟩,
         brInstr 3]⟩,
    ⟨9, [⟨4, .i32, .phi [(Val.inst 2, 0)]⟩, retInstr 5]⟩]⟩

/-- `%1 = add %x, %y` in the entry; in the successor a single-incoming phi
`%3 = phi [%1, entry]`, `%4 = add %3, 7` and `%5 = add %1, 7`.  Collapsing
the phi turns `%4` and `%5` into the same expression. -/
def phiCollapseFunc : Func :=
  ⟨[⟨0, [⟨1, .i32, .binop .add (Val.arg .i32 0) (Val.arg .i32 1)⟩, brInstr 2]⟩,
    ⟨9, [⟨3, .i32, .phi [(Val.inst 1, 0)]⟩,
         ⟨4, .i32, .binop .add (Val.inst 3) (Val.constInt .i32 7)⟩,
         ⟨5, .i32, .binop .add (Val.inst 1) (Val.constInt .i32 7)⟩,
         retInstr 6]⟩]⟩

/-- A loop-carried phi: `%1 = phi [5, entry], [%2, loop]` with
`%2 = add %1, %x` — the incoming value of the phi transitively uses the
phi itself. -/
def loopPhiI : Instr := ⟨1, .i32, .phi [(Val.constInt .i32 5, 0), (Val.inst 2, 1)]⟩

def loopAddI : Instr := ⟨2, .i32, .binop .add (Val.inst 1) (Val.arg .i32 0)⟩

def loopPhiFunc : Func :=
  ⟨[⟨0, [brInstr 10]⟩, ⟨1, [loopPhiI, loopAddI, brInstr 11]⟩]⟩

/-!  C1.  The spec requires commutative binary operations with swapped
operands to be judged equivalent, and one to be eliminated when dominance
allows.  The live signature path (`getExpressionString`) emits operand
numbers in order and never canonicalizes a commutative pair, so `add x y`
and `add y x` get distinct signatures and value numbers; only the dead
`ValueHashInfo::compare` checks both orderings.  At the failing input the
table answers "not equal" and nothing is eliminated. -/

/-- C1 (code_bug): for `%1 = add %x, %y` and `%2 = add %y, %x`,
`areEqual` returns `false` and the run schedules nothing — the swapped
commutative pair is not judged equivalent and neither is eliminated, even
though `%1` dominates `%2`. -/
theorem commutative_swap_not_unified :
    (areEqual (allInsts swapFunc) 20 (Val.inst 1) (Val.inst 2)
        VTState.empty).map (fun p => p.1) = some false ∧
    instDominates swapFunc oneBlockDT 1 2 = true ∧
    (runGVN 20 swapFunc oneBlockDT).map (fun r => (r.changed, r.toRemove)) =
      some (false, []) := by
  exact ⟨rfl, rfl, rfl⟩

/-!  C2.  The comment in `GVN::run` says the blocks are processed so that
definitions come before uses, but the loop iterates
`post_order(DT.getRootNode())`, which visits dominated blocks before their
dominators. -/

/-- C2 (code_bug): in the two-block dominator tree, block 0 strictly
dominates block 1, yet the post-order visit sequence used by the main pass
is `[1, 0]` — the dominated block first.  As a consequence the redundant
add in the dominated block of `domFunc` is numbered first, becomes the
representative, and the run eliminates nothing. -/
theorem postorder_visits_dominators_last :
    strictlyDominatesB chainDT 0 1 = true ∧
    DomTree.post chainDT = [1, 0] ∧
    (runGVN 20 domFunc chainDT).map (fun r => (r.changed, r.toRemove)) =
      some (false, []) := by
  exact ⟨rfl, rfl, rfl⟩

/-!  C4.  The signature contains opcode, operand numbers and the
operation-specific extras, but not the result type; the only type check in
the file sits in the dead `ValueHashInfo::compare`.  Two loads of the same
pointer at different result types therefore collide. -/

/-- C4 (code_bug): the two loads of `loadFunc` have different result types
(`i32` versus `i64`), yet `areEqual` answers `true` and the run replaces
the `i64` load by the `i32` load. -/
theorem type_mismatch_still_judged_equal :
    (findInst (allInsts loadFunc) 1).map Instr.ty = some Ty.i32 ∧
    (findInst (allInsts loadFunc) 2).map Instr.ty = some Ty.i64 ∧
    (areEqual (allInsts loadFunc) 20 (Val.inst 1) (Val.inst 2)
        VTState.empty).map (fun p => p.1) = some true ∧
    (runGVN 20 loadFunc oneBlockDT).map
        (fun r => (r.toRemove, alookup r.repl 2)) =
      some ([2], some (Val.inst 1)) := by
  exact ⟨rfl, rfl, rfl, rfl⟩

/-- C6 (confirmed): a zero constant is answered with the reserved value
number 0 before any table access — no signature is built, the state is
untouched — and two separately constructed zero constants are judged
equivalent. -/
theorem zero_constants_share_number_zero (ty : Ty) (env : List Instr)
    (fuel : Nat) (st : VTState) :
    lookupOrAdd env (fuel + 1) (Val.constInt ty 0) st = some (0, st) ∧
    areEqual env (fuel + 1) (Val.constInt ty 0) (Val.constInt ty 0) st =
      some (true, st) := by
  constructor
  · simp [lookupOrAdd, isNullConst]
  · simp [areEqual, lookupOrAdd, isNullConst]

/-!  C7.  The pre-pass schedules the trivial phi `%4` for replacement by its
sole incoming value `%2`; the main pass then finds `%2` redundant to `%1`
and schedules it too.  The final schedule therefore contains a pair whose
replacement target is itself scheduled for removal. -/

/-- C7 (code_bug): in `phiOverAddFunc` the run schedules `%4 → %2` while
`%2` is itself in the removal set — the schedule does contain a pair whose
replacement target is scheduled for removal, contrary to the claim. -/
theorem replacement_target_itself_scheduled :
    (runGVN 20 phiOverAddFunc chainDT9).map
        (fun r => (alookup r.repl 4, decide (2 ∈ r.toRemove),
          decide (4 ∈ r.toRemove))) =
      some (some (Val.inst 2), true, true) := by
  exact rfl

/-- C8 (counterexample): running the pass on `phiCollapseFunc` reports a
change, and running it again on the resulting function reports a change
again (it now removes `%5`, congruent to the rewritten `%4`) — the pass is
not idempotent. -/
theorem second_run_changes_again :
    (runGVN 20 phiCollapseFunc chainDT9).map (fun r => r.changed) =
      some true ∧
    ((runGVN 20 phiCollapseFunc chainDT9).bind
        (fun r => runGVN 20 r.fn chainDT9)).map
        (fun r => (r.changed, r.toRemove)) = some (true, [5]) := by
  exact ⟨rfl, rfl⟩

/-!  C3.  `lookupOrAddValue` re-enters itself through `getExpressionString`
without any in-progress marker: for the loop-carried phi `%1` of
`loopPhiFunc`, numbering `%1` numbers its incoming `%2 = add %1, %x`,
which numbers `%1` again with `%1` still unbound — the recursion never
returns, at any fuel. -/

theorem loopPhi_lookup_diverges :
    ∀ (fuel : Nat) (st : VTState),
      alookup st.valueNumbering (Val.inst 1) = none →
      alookup st.valueNumbering (Val.inst 2) = none →
      lookupOrAdd (allInsts loopPhiFunc) fuel (Val.inst 1) st = none ∧
      lookupOrAdd (allInsts loopPhiFunc) fuel (Val.inst 2) st = none := by
  intro fuel
  induction fuel with
  | zero =>
    intro st h1 h2
    exact ⟨rfl, rfl⟩
  | succ fuel ih =>
    intro st h1 h2
    have hnc5 : isNullConst (Val.constInt Ty.i32 5) = false := by decide
    have hne51 : Val.constInt Ty.i32 5 ≠ Val.inst 1 := by decide
    have hne52 : Val.constInt Ty.i32 5 ≠ Val.inst 2 := by decide
    constructor
    · have hfind1 : findInst (allInsts loopPhiFunc) 1 = some loopPhiI := rfl
      simp only [lookupOrAdd, isNullConst, Bool.false_eq_true, if_false, h1,
        hfind1, Instr.isEligible, loopPhiI, getTokens, lookupPhi, if_true]
      cases fuel with
      | zero => simp [lookupOrAdd]
      | succ g =>
        cases hc : alookup st.valueNumbering (Val.constInt Ty.i32 5) with
        | some m =>
          have hc5 : lookupOrAdd (allInsts loopPhiFunc) (g + 1)
              (Val.constInt Ty.i32 5) st = some (m, st) := by
            simp [lookupOrAdd, hnc5, hc]
          have h2x := (ih st h1 h2).2
          simp only [hc5, h2x]
        | none =>
          have hc5 : lookupOrAdd (allInsts loopPhiFunc) (g + 1)
              (Val.constInt Ty.i32 5) st =
              some (st.next,
                ⟨aupd st.valueNumbering (Val.constInt Ty.i32 5) st.next,
                  st.exprNumbering,
                  aupd st.numberToValue st.next (Val.constInt Ty.i32 5),
                  st.next + 1⟩) := by
            simp [lookupOrAdd, hnc5, hc, createNewVN]
          have h1x : alookup (aupd st.valueNumbering (Val.constInt Ty.i32 5)
              st.next) (Val.inst 1) = none := by
            rw [alookup_aupd_ne _ _ _ _ hne51]; exact h1
          have h2x : alookup (aupd st.valueNumbering (Val.constInt Ty.i32 5)
              st.next) (Val.inst 2) = none := by
            rw [alookup_aupd_ne _ _ _ _ hne52]; exact h2
          have hrec := (ih ⟨aupd st.valueNumbering (Val.constInt Ty.i32 5)
              st.next, st.exprNumbering,
              aupd st.numberToValue st.next (Val.constInt Ty.i32 5),
              st.next + 1⟩ h1x h2x).2
          simp only [hc5, hrec]
    · have hfind2 : findInst (allInsts loopPhiFunc) 2 = some loopAddI := rfl
      have h1x := (ih st h1 h2).1
      simp only [lookupOrAdd, isNullConst, Bool.false_eq_true, if_false, h2,
        hfind2, Instr.isEligible, loopAddI, getTokens, lookupVals, if_true]
      rw [h1x]

def loopDT : DomTree := .mk 0 [.mk 1 []]

/-- C3 (code_bug): on the loop-carried phi of `loopPhiFunc` the value
numbering never returns — `lookupOrAddValue` on the phi yields no result at
any recursion depth, and consequently the whole pass never completes —
contrary to the claim that a re-entered node is treated as fresh and the
pass always terminates. -/
theorem value_numbering_diverges_on_loop_phi :
    (∀ fuel, lookupOrAdd (allInsts loopPhiFunc) fuel (Val.inst 1)
      VTState.empty = none) ∧
    (∀ fuel, runGVN fuel loopPhiFunc loopDT = none) := by
  constructor
  · intro fuel
    exact (loopPhi_lookup_diverges fuel VTState.empty rfl rfl).1
  · intro fuel
    have hdiv := (loopPhi_lookup_diverges fuel VTState.empty rfl rfl).2
    have hphase1 : phase1 loopPhiFunc RunState.start = RunState.start := rfl
    have hpost : DomTree.post loopDT = [1, 0] := rfl
    have hfb1 : findBlock loopPhiFunc 1 =
        some ⟨1, [loopPhiI, loopAddI, brInstr 11]⟩ := rfl
    have hstep : phase2Inst (allInsts loopPhiFunc) loopPhiFunc loopDT fuel
        RunState.start loopPhiI = none := by
      have hne : ¬ (Val.inst 2 = Val.constInt Ty.i32 5) := by decide
      have hsv : RunState.start.vt = VTState.empty := rfl
      simp only [phase2Inst, loopPhiI, Instr.isTerminator,
        Instr.hasSideEffects, Instr.isEHPad, Bool.or_self, Bool.false_eq_true,
        if_false, hsv, phiAllSame, if_neg hne, areEqual]
      rw [hdiv]
    simp only [runGVN, hphase1, phase2, hpost, foldOptList, phase2Block, hfb1,
      hstep]

/-!  C9.  `lookupOrAddValue` checks the map before any insertion; a binding,
once made, is never overwritten, and a repeated call returns the same
number without touching the table. -/

/-- C9 (confirmed): when `lookupOrAddValue` answers `n` for `v`, every node
binding present before the call survives unchanged (bindings are assigned
once and never overwritten), and calling it again for `v` returns the same
`n` and leaves the table exactly as it is. -/
theorem lookupOrAdd_idempotent_per_node {env : List Instr} {fuel : Nat}
    {v : Val} {st : VTState} {n : Nat} {st1 : VTState}
    (h : lookupOrAdd env fuel v st = some (n, st1)) :
    (∀ w m, alookup st.valueNumbering w = some m →
      alookup st1.valueNumbering w = some m) ∧
    lookupOrAdd env fuel v st1 = some (n, st1) :=
  ⟨(lookupOrAdd_stepOK fuel v st (n, st1) h).1, lookupOrAdd_idem h⟩

theorem lookupOrAdd_idempotent_per_node_witness :
    (∀ w m, alookup VTState.empty.valueNumbering w = some m →
      alookup (⟨[(Val.arg Ty.i32 0, 1)], [], [(1, Val.arg Ty.i32 0)], 2⟩ :
        VTState).valueNumbering w = some m) ∧
    lookupOrAdd [] 1 (Val.arg Ty.i32 0)
        ⟨[(Val.arg Ty.i32 0, 1)], [], [(1, Val.arg Ty.i32 0)], 2⟩ =
      some (1, ⟨[(Val.arg Ty.i32 0, 1)], [], [(1, Val.arg Ty.i32 0)], 2⟩) :=
  lookupOrAdd_idempotent_per_node
    (show lookupOrAdd [] 1 (Val.arg Ty.i32 0) VTState.empty =
      some (1, ⟨[(Val.arg Ty.i32 0, 1)], [], [(1, Val.arg Ty.i32 0)], 2⟩)
      from rfl)

/-!  C8.  The driver sets `Changed` exactly when it inserts into the removal
set, so an unchanged verdict means an empty schedule, the apply phase is a
no-op, and a rerun reproduces the same result.  (The unrestricted claim is
refuted by `second_run_changes_again` above.) -/

/-- An unchanged flag implies an empty removal set. -/
def NoChangeEmpty (rs : RunState) : Prop :=
  rs.changed = false → rs.toRemove = []

theorem scheduleRemoval_nce {rs : RunState} {id : Nat} {rep : Val} :
    NoChangeEmpty (scheduleRemoval rs id rep) := by
  intro h
  simp [scheduleRemoval] at h

theorem phase1Inst_nce {rs : RunState} {I : Instr}
    (hrs : NoChangeEmpty rs) : NoChangeEmpty (phase1Inst rs I) := by
  unfold phase1Inst
  split
  · exact hrs
  · split
    · exact scheduleRemoval_nce
    · exact hrs
  · exact hrs

theorem phase1_nce {F : Func} {rs : RunState} (hrs : NoChangeEmpty rs) :
    NoChangeEmpty (phase1 F rs) := by
  unfold phase1
  refine foldl_pres NoChangeEmpty _ F.blocks (fun rs b _ hb => ?_) rs hrs
  exact foldl_pres NoChangeEmpty _ b.insts (fun rs I _ hI => phase1Inst_nce hI)
    rs hb

theorem numberAndCheck_nce {env : List Instr} {F : Func} {dt : DomTree}
    {fuel : Nat} {rs : RunState} {I : Instr} {rs1 : RunState}
    (hrs : NoChangeEmpty rs)
    (h : numberAndCheck env F dt fuel rs I = some rs1) : NoChangeEmpty rs1 := by
  simp only [numberAndCheck] at h
  split at h
  · exact absurd h (by simp)
  · next vn vt1 heq =>
    split at h
    · cases h; exact hrs
    · next earlier he2 =>
      split at h
      · cases h; exact hrs
      · split at h
        · next eid =>
          split at h
          · cases h; exact scheduleRemoval_nce
          · cases h; exact hrs
        · cases h; exact hrs

theorem phase2Inst_nce {env : List Instr} {F : Func} {dt : DomTree}
    {fuel : Nat} {rs : RunState} {I : Instr} {rs1 : RunState}
    (hrs : NoChangeEmpty rs)
    (h : phase2Inst env F dt fuel rs I = some rs1) : NoChangeEmpty rs1 := by
  unfold phase2Inst at h
  split at h
  · cases h; exact hrs
  · split at h
    · cases h; exact hrs
    · split at h
      · exact absurd h (by simp)
      · next vt1 hps =>
        cases h
        exact scheduleRemoval_nce
      · next vt1 hps =>
        have hrs2 : NoChangeEmpty { rs with vt := vt1 } := hrs
        exact numberAndCheck_nce hrs2 h
    · exact numberAndCheck_nce hrs h

theorem phase2_nce {env : List Instr} {F : Func} {dt : DomTree} {fuel : Nat}
    {rs rs2 : RunState} (hrs : NoChangeEmpty rs)
    (h : phase2 env F dt fuel rs = some rs2) : NoChangeEmpty rs2 := by
  unfold phase2 at h
  refine foldOptList_pres NoChangeEmpty _ dt.post ?_ rs rs2 hrs h
  intro rsa bid _ hrsa rsb hstep
  unfold phase2Block at hstep
  split at hstep
  · cases hstep; exact hrsa
  · next b hb =>
    refine foldOptList_pres NoChangeEmpty _ b.insts ?_ rsa rsb hrsa hstep
    intro rsc I _ hrsc rsd hstep2
    exact phase2Inst_nce hrsc hstep2

/-- C8 (amended, confirmed): if one run reports no change, the function is
returned unmodified and a second run reproduces the very same unchanged
result.  (Idempotence after a changing run fails: see the counterexample.) -/
theorem runGVN_verdict_stable {fuel : Nat} {F : Func} {dt : DomTree}
    {r : RunResult} (h : runGVN fuel F dt = some r)
    (hc : r.changed = false) : r.fn = F ∧ runGVN fuel r.fn dt = some r := by
  have hstart : NoChangeEmpty RunState.start := fun _ => rfl
  simp only [runGVN] at h
  split at h
  · exact absurd h (by simp)
  · next rs2 hp2 =>
    have h1 : NoChangeEmpty (phase1 F RunState.start) := phase1_nce hstart
    have h2 : NoChangeEmpty rs2 := phase2_nce h1 hp2
    cases h
    have hcc : rs2.changed = false := hc
    have hemp : rs2.toRemove = [] := h2 hcc
    have hfn : applyAll rs2.toRemove rs2.repl F = F := by
      rw [hemp]
      rfl
    refine ⟨hfn, ?_⟩
    show runGVN fuel (applyAll rs2.toRemove rs2.repl F) dt = _
    rw [hfn]
    simp only [runGVN, hp2]
    rw [hfn]

theorem runGVN_verdict_stable_witness :
    (⟨swapFunc, false, [], [], 2, 0⟩ : RunResult).fn = swapFunc ∧
    runGVN 20 (⟨swapFunc, false, [], [], 2, 0⟩ : RunResult).fn oneBlockDT =
      some ⟨swapFunc, false, [], [], 2, 0⟩ :=
  runGVN_verdict_stable
    (show runGVN 20 swapFunc oneBlockDT =
      some ⟨swapFunc, false, [], [], 2, 0⟩ from rfl) rfl

/-!  C5.  Every entry of the replacement map is either a phi scheduled by
one of the two phi-simplification sites, or an instruction scheduled by the
value-number collision site — and that site fires only after
`DT.dominates(EarlierInst, Inst)` succeeded. -/

def SchedOK (F : Func) (dt : DomTree) (rs : RunState) : Prop :=
  ∀ id rep, alookup rs.repl id = some rep →
    (∃ I, I ∈ allInsts F ∧ I.id = id ∧ I.isPhi = true) ∨
    (∃ eid, rep = Val.inst eid ∧ instDominates F dt eid id = true)

theorem SchedOK_schedule {F : Func} {dt : DomTree} {rs : RunState}
    {id0 : Nat} {rep0 : Val} (hrs : SchedOK F dt rs)
    (hj : (∃ I, I ∈ allInsts F ∧ I.id = id0 ∧ I.isPhi = true) ∨
      (∃ eid, rep0 = Val.inst eid ∧ instDominates F dt eid id0 = true)) :
    SchedOK F dt (scheduleRemoval rs id0 rep0) := by
  intro id rep h
  simp only [scheduleRemoval] at h
  rw [alookup_aupd] at h
  split at h
  · next he =>
    cases h
    rw [← he]
    exact hj
  · exact hrs id rep h

theorem isPhi_of_kind {I : Instr} {inc : List (Val × Nat)}
    (hk : I.kind = InstKind.phi inc) : I.isPhi = true := by
  simp [Instr.isPhi, hk]

theorem phase1Inst_schedOK {F : Func} {dt : DomTree} {rs : RunState}
    {I : Instr} (hI : I ∈ allInsts F) (hrs : SchedOK F dt rs) :
    SchedOK F dt (phase1Inst rs I) := by
  unfold phase1Inst
  split
  · exact hrs
  · next v0 bb0 rest hk =>
    split
    · exact SchedOK_schedule hrs (Or.inl ⟨I, hI, rfl, isPhi_of_kind hk⟩)
    · exact hrs
  · exact hrs

theorem phase1_schedOK {F : Func} {dt : DomTree} {rs : RunState}
    (hrs : SchedOK F dt rs) : SchedOK F dt (phase1 F rs) := by
  unfold phase1
  refine foldl_pres (SchedOK F dt) _ F.blocks (fun rsa b hb ha => ?_) rs hrs
  refine foldl_pres (SchedOK F dt) _ b.insts (fun rsb I hIb hb2 => ?_) rsa ha
  have hbF : b ∈ F.blocks := hb
  exact phase1Inst_schedOK (mem_allInsts hbF hIb) hb2

theorem numberAndCheck_schedOK {env : List Instr} {F : Func} {dt : DomTree}
    {fuel : Nat} {rs : RunState} {I : Instr} {rs1 : RunState}
    (hrs : SchedOK F dt rs)
    (h : numberAndCheck env F dt fuel rs I = some rs1) : SchedOK F dt rs1 := by
  simp only [numberAndCheck] at h
  split at h
  · exact absurd h (by simp)
  · next vn vt1 heq =>
    split at h
    · cases h; exact hrs
    · next earlier he2 =>
      split at h
      · cases h; exact hrs
      · split at h
        · next eid hne2 =>
          split at h
          · next hdom =>
            cases h
            have hrs2 : SchedOK F dt
                { rs with numInsts := rs.numInsts + 1, vt := vt1 } := hrs
            exact SchedOK_schedule hrs2 (Or.inr ⟨eid, rfl, hdom⟩)
          · cases h; exact hrs
        · cases h; exact hrs

theorem phase2Inst_schedOK {env : List Instr} {F : Func} {dt : DomTree}
    {fuel : Nat} {rs : RunState} {I : Instr} {rs1 : RunState}
    (hI : I ∈ allInsts F) (hrs : SchedOK F dt rs)
    (h : phase2Inst env F dt fuel rs I = some rs1) : SchedOK F dt rs1 := by
  unfold phase2Inst at h
  split at h
  · cases h; exact hrs
  · split at h
    · next hk => cases h; exact hrs
    · next v0 bb0 rest hk =>
      split at h
      · exact absurd h (by simp)
      · next vt1 hps =>
        cases h
        have hrs2 : SchedOK F dt { rs with vt := vt1 } := hrs
        exact SchedOK_schedule hrs2 (Or.inl ⟨I, hI, rfl, isPhi_of_kind hk⟩)
      · next vt1 hps =>
        have hrs2 : SchedOK F dt { rs with vt := vt1 } := hrs
        exact numberAndCheck_schedOK hrs2 h
    · exact numberAndCheck_schedOK hrs h

theorem phase2_schedOK {env : List Instr} {F : Func} {dt : DomTree}
    {fuel : Nat} {rs rs2 : RunState} (hrs : SchedOK F dt rs)
    (h : phase2 env F dt fuel rs = some rs2) : SchedOK F dt rs2 := by
  unfold phase2 at h
  refine foldOptList_pres (SchedOK F dt) _ dt.post ?_ rs rs2 hrs h
  intro rsa bid _ hrsa rsb hstep
  unfold phase2Block at hstep
  split at hstep
  · cases hstep; exact hrsa
  · next b hb =>
    have hbF : b ∈ F.blocks := List.mem_of_find?_eq_some hb
    refine foldOptList_pres (SchedOK F dt) _ b.insts ?_ rsa rsb hrsa hstep
    intro rsc I hIb hrsc rsd hstep2
    exact phase2Inst_schedOK (mem_allInsts hbF hIb) hrsc hstep2

/-!  The apply phase only erases scheduled instructions; anything else keeps
an instruction with its id in the function. -/

theorem mem_allInsts_iff {F : Func} {I : Instr} :
    I ∈ allInsts F ↔ ∃ b, b ∈ F.blocks ∧ I ∈ b.insts := by
  unfold allInsts
  rw [List.mem_flatten]
  constructor
  · rintro ⟨l, hl, hI⟩
    rw [List.mem_map] at hl
    obtain ⟨b, hb, rfl⟩ := hl
    exact ⟨b, hb, hI⟩
  · rintro ⟨b, hb, hI⟩
    exact ⟨b.insts, List.mem_map_of_mem _ hb, hI⟩

theorem replaceUses_keeps {F : Func} {old : Nat} {rep : Val} {I : Instr}
    (hI : I ∈ allInsts F) :
    (⟨I.id, I.ty, replaceInKind old rep I.kind⟩ : Instr) ∈
      allInsts (replaceUses F old rep) := by
  rw [mem_allInsts_iff] at hI ⊢
  obtain ⟨b, hb, hIb⟩ := hI
  refine ⟨⟨b.id, b.insts.map (fun J => ⟨J.id, J.ty, replaceInKind old rep J.kind⟩)⟩,
    ?_, ?_⟩
  · exact List.mem_map_of_mem _ hb
  · exact List.mem_map_of_mem _ hIb

theorem eraseInst_keeps {F : Func} {rid : Nat} {I : Instr}
    (hI : I ∈ allInsts F) (hne : I.id ≠ rid) :
    I ∈ allInsts (eraseInst F rid) := by
  rw [mem_allInsts_iff] at hI ⊢
  obtain ⟨b, hb, hIb⟩ := hI
  refine ⟨⟨b.id, b.insts.filter (fun J => decide (J.id ≠ rid))⟩, ?_, ?_⟩
  · exact List.mem_map_of_mem _ hb
  · rw [List.mem_filter]
    exact ⟨hIb, by simp [hne]⟩

theorem applyAll_cons (id : Nat) (rest : List Nat) (repl : List (Nat × Val))
    (F : Func) :
    applyAll (id :: rest) repl F =
      applyAll rest repl
        (match alookup repl id with
          | some rep => eraseInst (replaceUses F id rep) id
          | none => F) := by
  simp only [applyAll, List.foldl_cons]

theorem applyAll_keeps_unscheduled :
    ∀ (toR : List Nat) (repl : List (Nat × Val)) (F : Func) (I : Instr),
      I ∈ allInsts F → I.id ∉ toR →
      ∃ J, J ∈ allInsts (applyAll toR repl F) ∧ J.id = I.id := by
  intro toR
  induction toR with
  | nil =>
    intro repl F I hI _
    exact ⟨I, hI, rfl⟩
  | cons id rest ih =>
    intro repl F I hI hnot
    have hne : I.id ≠ id := fun he => hnot (by rw [he]; exact List.mem_cons_self id rest)
    have hrest : I.id ∉ rest := fun hr => hnot (List.mem_cons_of_mem _ hr)
    rw [applyAll_cons]
    cases hrepl : alookup repl id with
    | none =>
      exact ih repl F I hI hrest
    | some rep =>
      have hI2 : (⟨I.id, I.ty, replaceInKind id rep I.kind⟩ : Instr) ∈
          allInsts (replaceUses F id rep) := replaceUses_keeps hI
      have hI3 := eraseInst_keeps hI2 hne
      exact ih repl (eraseInst (replaceUses F id rep) id)
        ⟨I.id, I.ty, replaceInKind id rep I.kind⟩ hI3 hrest

/-- C5 (confirmed): in any completed run, a scheduled non-phi instruction is
always replaced by an instruction that dominates it — when the recorded
representative does not dominate, no replacement is scheduled — and every
instruction not in the removal set still has an instruction with its id in
the resulting function. -/
theorem non_dominating_match_not_rewritten {fuel : Nat} {F : Func}
    {dt : DomTree} {r : RunResult} (h : runGVN fuel F dt = some r) :
    (∀ id rep, alookup r.repl id = some rep →
      (∀ I, I ∈ allInsts F → I.id = id → I.isPhi = false) →
      ∃ eid, rep = Val.inst eid ∧ instDominates F dt eid id = true) ∧
    (∀ I, I ∈ allInsts F → I.id ∉ r.toRemove →
      ∃ J, J ∈ allInsts r.fn ∧ J.id = I.id) := by
  simp only [runGVN] at h
  split at h
  · exact absurd h (by simp)
  · next rs2 hp2 =>
    have hstart : SchedOK F dt RunState.start := by
      intro id rep hx
      simp [RunState.start, alookup] at hx
    have h1 : SchedOK F dt (phase1 F RunState.start) := phase1_schedOK hstart
    have h2 : SchedOK F dt rs2 := phase2_schedOK h1 hp2
    cases h
    constructor
    · intro id rep hrep hnophi
      rcases h2 id rep hrep with ⟨I, hIF, hid, hphi⟩ | hdom
      · rw [hnophi I hIF hid] at hphi
        exact Bool.noConfusion hphi
      · exact hdom
    · intro I hI hnot
      exact applyAll_keeps_unscheduled rs2.toRemove rs2.repl F I hI hnot

theorem non_dominating_match_not_rewritten_witness :
    (∀ id rep,
      alookup (⟨⟨[]⟩, false, [], [], 0, 0⟩ : RunResult).repl id = some rep →
      (∀ I, I ∈ allInsts (⟨[]⟩ : Func) → I.id = id → I.isPhi = false) →
      ∃ eid, rep = Val.inst eid ∧
        instDominates (⟨[]⟩ : Func) oneBlockDT eid id = true) ∧
    (∀ I, I ∈ allInsts (⟨[]⟩ : Func) →
      I.id ∉ (⟨⟨[]⟩, false, [], [], 0, 0⟩ : RunResult).toRemove →
      ∃ J, J ∈ allInsts (⟨⟨[]⟩, false, [], [], 0, 0⟩ : RunResult).fn ∧
        J.id = I.id) :=
  non_dominating_match_not_rewritten
    (show runGVN 1 (⟨[]⟩ : Func) oneBlockDT =
      some ⟨⟨[]⟩, false, [], [], 0, 0⟩ from rfl)

/-!  C10.  Only binary ops, compares, loads and phis reach the signature
table; an ineligible instruction takes the `CreateNewNumber` path, so it is
always its own representative and the collision site can never fire on it;
the phi sites only ever schedule phis, which are eligible. -/

theorem isEligible_of_isPhi {I : Instr} (h : I.isPhi = true) :
    I.isEligible = true := by
  cases hk : I.kind <;> simp_all [Instr.isPhi, Instr.isEligible, hk]

theorem find_by_id_nodup :
    ∀ (l : List Instr) (I : Instr), (l.map Instr.id).Nodup → I ∈ l →
      l.find? (fun J => J.id == I.id) = some I := by
  intro l
  induction l with
  | nil =>
    intro I _ hI
    exact absurd hI (List.not_mem_nil I)
  | cons J t ih =>
    intro I hnd hI
    rw [List.map_cons, List.nodup_cons] at hnd
    obtain ⟨hJnot, hndt⟩ := hnd
    rcases List.mem_cons.mp hI with rfl | hIt
    · simp [List.find?]
    · have hne : J.id ≠ I.id := by
        intro he
        exact hJnot (he ▸ List.mem_map_of_mem Instr.id hIt)
      have hbeq : (J.id == I.id) = false := by simp [hne]
      rw [List.find?_cons, hbeq]
      exact ih I hndt hIt

theorem findInst_of_nodup {F : Func} {I : Instr}
    (hnd : ((allInsts F).map Instr.id).Nodup) (hI : I ∈ allInsts F) :
    findInst (allInsts F) I.id = some I :=
  find_by_id_nodup (allInsts F) I hnd hI

/-- The table invariant holds and every scheduled id denotes an eligible
instruction of the function. -/
def ElimOK (env : List Instr) (rs : RunState) : Prop :=
  VTInv env rs.vt ∧
  ∀ id, id ∈ rs.toRemove → eligibleValB env (Val.inst id) = true

theorem ElimOK_schedule {env : List Instr} {rs : RunState} {id0 : Nat}
    {rep0 : Val} (hrs : ElimOK env rs)
    (helig : eligibleValB env (Val.inst id0) = true) :
    ElimOK env (scheduleRemoval rs id0 rep0) := by
  refine ⟨hrs.1, ?_⟩
  intro id hid
  simp only [scheduleRemoval] at hid
  rw [mem_insertId] at hid
  rcases hid with hid | rfl
  · exact hrs.2 id hid
  · exact helig

theorem phase1Inst_elimOK {env : List Instr} {rs : RunState} {I : Instr}
    (hfind : findInst env I.id = some I) (hrs : ElimOK env rs) :
    ElimOK env (phase1Inst rs I) := by
  unfold phase1Inst
  split
  · exact hrs
  · next v0 bb0 rest hk =>
    split
    · refine ElimOK_schedule hrs ?_
      simp [eligibleValB, hfind, isEligible_of_isPhi (isPhi_of_kind hk)]
    · exact hrs
  · exact hrs

theorem phase1_elimOK {F : Func} {rs : RunState}
    (hnd : ((allInsts F).map Instr.id).Nodup)
    (hrs : ElimOK (allInsts F) rs) : ElimOK (allInsts F) (phase1 F rs) := by
  unfold phase1
  refine foldl_pres (ElimOK (allInsts F)) _ F.blocks
    (fun rsa b hb ha => ?_) rs hrs
  refine foldl_pres (ElimOK (allInsts F)) _ b.insts
    (fun rsb I hIb hb2 => ?_) rsa ha
  exact phase1Inst_elimOK (findInst_of_nodup hnd (mem_allInsts hb hIb)) hb2

theorem numberAndCheck_elimOK {env : List Instr} {F : Func} {dt : DomTree}
    {fuel : Nat} {rs : RunState} {I : Instr} {rs1 : RunState}
    (hfind : findInst env I.id = some I) (hrs : ElimOK env rs)
    (h : numberAndCheck env F dt fuel rs I = some rs1) : ElimOK env rs1 := by
  simp only [numberAndCheck] at h
  split at h
  · exact absurd h (by simp)
  · next vn vt1 heq =>
    have hstep := lookupOrAdd_stepOK fuel (Val.inst I.id) rs.vt (vn, vt1) heq
    have hinv1 : VTInv env vt1 := hstep.2.1 hrs.1
    cases helig : I.isEligible with
    | true =>
      split at h
      · cases h; exact ⟨hinv1, hrs.2⟩
      · next earlier he2 =>
        split at h
        · cases h; exact ⟨hinv1, hrs.2⟩
        · split at h
          · next eid hne2 =>
            split at h
            · next hdom =>
              cases h
              refine ElimOK_schedule ⟨hinv1, hrs.2⟩ ?_
              simp [eligibleValB, hfind, helig]
            · cases h; exact ⟨hinv1, hrs.2⟩
          · cases h; exact ⟨hinv1, hrs.2⟩
    | false =>
      have hnel : eligibleValB env (Val.inst I.id) = false := by
        simp [eligibleValB, hfind, helig]
      have hrep : alookup vt1.numberToValue vn = some (Val.inst I.id) :=
        lookupOrAdd_rep_ineligible hrs.1 hnel rfl heq
      simp only [hrep, if_true] at h
      cases h
      exact ⟨hinv1, hrs.2⟩

theorem phase2Inst_elimOK {env : List Instr} {F : Func} {dt : DomTree}
    {fuel : Nat} {rs : RunState} {I : Instr} {rs1 : RunState}
    (hfind : findInst env I.id = some I) (hrs : ElimOK env rs)
    (h : phase2Inst env F dt fuel rs I = some rs1) : ElimOK env rs1 := by
  unfold phase2Inst at h
  split at h
  · cases h; exact hrs
  · split at h
    · next hk => cases h; exact hrs
    · next v0 bb0 rest hk =>
      split at h
      · exact absurd h (by simp)
      · next vt1 hps =>
        cases h
        have hstep := phiAllSame_stepOK rest rs.vt true vt1 hps
        have hrs2 : ElimOK env { rs with vt := vt1 } :=
          ⟨hstep.2.1 hrs.1, hrs.2⟩
        refine ElimOK_schedule hrs2 ?_
        simp [eligibleValB, hfind, isEligible_of_isPhi (isPhi_of_kind hk)]
      · next vt1 hps =>
        have hstep := phiAllSame_stepOK rest rs.vt false vt1 hps
        have hrs2 : ElimOK env { rs with vt := vt1 } :=
          ⟨hstep.2.1 hrs.1, hrs.2⟩
        exact numberAndCheck_elimOK hfind hrs2 h
    · exact numberAndCheck_elimOK hfind hrs h

theorem phase2_elimOK {F : Func} {dt : DomTree} {fuel : Nat}
    {rs rs2 : RunState} (hnd : ((allInsts F).map Instr.id).Nodup)
    (hrs : ElimOK (allInsts F) rs)
    (h : phase2 (allInsts F) F dt fuel rs = some rs2) :
    ElimOK (allInsts F) rs2 := by
  unfold phase2 at h
  refine foldOptList_pres (ElimOK (allInsts F)) _ dt.post ?_ rs rs2 hrs h
  intro rsa bid _ hrsa rsb hstep
  unfold phase2Block at hstep
  split at hstep
  · cases hstep; exact hrsa
  · next b hb =>
    have hbF : b ∈ F.blocks := List.mem_of_find?_eq_some hb
    refine foldOptList_pres (ElimOK (allInsts F)) _ b.insts ?_ rsa rsb
      hrsa hstep
    intro rsc I hIb hrsc rsd hstep2
    exact phase2Inst_elimOK (findInst_of_nodup hnd (mem_allInsts hbF hIb))
      hrsc hstep2

/-- C10 (confirmed): an instruction that is not a binary op, compare, load
or phi always receives the fresh number `nextValueNumber` with the
signature table untouched and no other value sharing that number; and in a
completed run on a function with distinct instruction ids, such an
instruction is never scheduled for elimination. -/
theorem ineligible_fresh_unshared_never_removed :
    (∀ (env : List Instr) (fuel id : Nat) (I : Instr) (st : VTState),
      findInst env id = some I → I.isEligible = false →
      alookup st.valueNumbering (Val.inst id) = none →
      lookupOrAdd env (fuel + 1) (Val.inst id) st =
        some (st.next,
          ⟨aupd st.valueNumbering (Val.inst id) st.next, st.exprNumbering,
            aupd st.numberToValue st.next (Val.inst id), st.next + 1⟩) ∧
      (VTInv env st → ∀ w, w ≠ Val.inst id →
        alookup (aupd st.valueNumbering (Val.inst id) st.next) w ≠
          some st.next)) ∧
    (∀ (fuel : Nat) (F : Func) (dt : DomTree) (r : RunResult),
      ((allInsts F).map Instr.id).Nodup → runGVN fuel F dt = some r →
      ∀ I, I ∈ allInsts F → I.isEligible = false → I.id ∉ r.toRemove) := by
  constructor
  · intro env fuel id I st hfind hinelig hun
    refine ⟨lookupOrAdd_ineligible_fresh hfind hinelig hun, ?_⟩
    intro hinv w hw hcontra
    rw [alookup_aupd_ne _ _ _ _ (fun he => hw he.symm)] at hcontra
    exact absurd (hinv.wfVN w st.next hcontra) (Nat.lt_irrefl _)
  · intro fuel F dt r hnd h
    simp only [runGVN] at h
    split at h
    · exact absurd h (by simp)
    · next rs2 hp2 =>
      have hstart : ElimOK (allInsts F) RunState.start :=
        ⟨VTInv_empty _, fun id hid => absurd hid (List.not_mem_nil id)⟩
      have h1 := phase1_elimOK hnd hstart
      have h2 := phase2_elimOK hnd h1 hp2
      cases h
      intro I hI hinelig hmem
      have hmem2 : I.id ∈ rs2.toRemove := hmem
      have helig := h2.2 I.id hmem2
      rw [show eligibleValB (allInsts F) (Val.inst I.id) = false by
        simp [eligibleValB, findInst_of_nodup hnd hI, hinelig]] at helig
      exact Bool.noConfusion helig

/-- Two structurally identical casts (modelled by the ineligible
`other` kind of opcode 38): eligible for nothing, never eliminated. -/
def castFunc : Func :=
  ⟨[⟨0, [⟨1, .i64, .other 38 [Val.arg .i32 0] false false false⟩,
         ⟨2, .i64, .other 38 [Val.arg .i32 0] false false false⟩,
         retInstr 3]⟩]⟩

theorem ineligible_fresh_unshared_never_removed_witness :
    (lookupOrAdd (allInsts castFunc) 1 (Val.inst 1) VTState.empty =
      some (VTState.empty.next,
        ⟨aupd VTState.empty.valueNumbering (Val.inst 1) VTState.empty.next,
          VTState.empty.exprNumbering,
          aupd VTState.empty.numberToValue VTState.empty.next (Val.inst 1),
          VTState.empty.next + 1⟩) ∧
      (VTInv (allInsts castFunc) VTState.empty → ∀ w, w ≠ Val.inst 1 →
        alookup (aupd VTState.empty.valueNumbering (Val.inst 1)
          VTState.empty.next) w ≠ some VTState.empty.next)) ∧
    (∀ I, I ∈ allInsts castFunc → I.isEligible = false →
      I.id ∉ (⟨castFunc, false, [], [], 2, 0⟩ : RunResult).toRemove) :=
  ⟨ineligible_fresh_unshared_never_removed.1 (allInsts castFunc) 0 1
      ⟨1, .i64, .other 38 [Val.arg .i32 0] false false false⟩
      VTState.empty rfl rfl rfl,
    ineligible_fresh_unshared_never_removed.2 20 castFunc oneBlockDT
      ⟨castFunc, false, [], [], 2, 0⟩ (by decide) rfl⟩
